import Mathlib

/-!
Verification of the progressive binary-search-tree exercise from
`src/rust/base/type.rs` (Stages 2–7).

The Rust node type is
`struct TreeNode { val: i32, left: Option<Box<TreeNode>>, right: Option<Box<TreeNode>> }`;
we embed it as a nested inductive with `Option` children.  `i32` values are
modelled as `Int`: the code only compares values, never does arithmetic on
them, so no overflow behaviour is observable.  The Stage 3 (`Box`) methods
`insert`/`find` and the Stage 6 (`Rc<RefCell>`) functions are embedded
separately, each from its own source text; the Stage 7 `inorder` traversal's
`print!` is modelled by appending to an output list.
-/

inductive TreeNode where
  | mk (val : Int) (left : Option TreeNode) (right : Option TreeNode)

namespace TreeNode

/-- Rust Stage 2: `fn new(val: i32) -> Self { TreeNode { val, left: None, right: None } }`. -/
def new (v : Int) : TreeNode := mk v none none

/-- The `val` field. -/
def val : TreeNode → Int
  | mk v _ _ => v

/-- The `left` field. -/
def left : TreeNode → Option TreeNode
  | mk _ l _ => l

/-- The `right` field. -/
def right : TreeNode → Option TreeNode
  | mk _ _ r => r

mutual
/-- Rust Stage 3 `fn insert(&mut self, val: i32)`: compare, descend into the
matching child if present, otherwise attach a fresh leaf there.  The `&mut self`
mutation is embedded as returning the updated tree. -/
def insert : TreeNode → Int → TreeNode
  | mk v l r, x =>
    if x < v then mk v (some (insertChild l x)) r
    else mk v l (some (insertChild r x))

/-- The two arms of the `match` on the child slot inside Stage 3 `insert`:
`Some(ref mut c) => c.insert(val)`, `None => slot = Some(Box::new(TreeNode::new(val)))`. -/
def insertChild : Option TreeNode → Int → TreeNode
  | some t, x => insert t x
  | none, x => new x
end

mutual
/-- Rust Stage 3 `fn find(&self, val: i32) -> bool`. -/
def find : TreeNode → Int → Bool
  | mk v l r, x =>
    if x = v then true
    else if x < v then findChild l x
    else findChild r x

/-- The `self.left.as_ref().map_or(false, |c| c.find(val))` idiom of Stage 3
`find`: an absent child yields `false`. -/
def findChild : Option TreeNode → Int → Bool
  | some t, x => find t x
  | none, _ => false
end

mutual
/-- Rust Stage 6 `fn insert(node: &Node, val: i32)` over `Rc<RefCell<TreeNode>>`:
same comparison-guided descent as Stage 3, written with `if let` on the child. -/
def insertRc : TreeNode → Int → TreeNode
  | mk v l r, x =>
    if x < v then mk v (some (insertRcChild l x)) r
    else mk v l (some (insertRcChild r x))

/-- Stage 6's `if let Some(ref c) = slot { insert(c, val) } else { slot = Some(TreeNode::new(val)) }`. -/
def insertRcChild : Option TreeNode → Int → TreeNode
  | some t, x => insertRc t x
  | none, x => new x
end

mutual
/-- Rust Stage 6 `fn find(node: &Node, val: i32) -> bool`. -/
def findRc : TreeNode → Int → Bool
  | mk v l r, x =>
    if x = v then true
    else if x < v then findRcChild l x
    else findRcChild r x

/-- Stage 6's `node.borrow().left.as_ref().map_or(false, |c| TreeNode::find(c, val))`. -/
def findRcChild : Option TreeNode → Int → Bool
  | some t, x => findRc t x
  | none, _ => false
end

/-- Rust Stage 7 `fn inorder(node: &Option<Node>)`, with `print!("{} ", val)`
modelled as emitting the value: the list of values printed, in print order. -/
def inorder : Option TreeNode → List Int
  | none => []
  | some (mk v l r) => inorder l ++ v :: inorder r

/-- Stage 7 `inorder` as a state-passing computation: the traversal holds a
shared borrow of the tree and owns the output stream.  It returns the tree it
leaves behind (rebuilt from exactly what the borrow exposed, since the body
contains no assignment) together with the extended output. -/
def inorderRun : Option TreeNode → List Int → Option TreeNode × List Int
  | none, out => (none, out)
  | some (mk v l r), out =>
    let lres := inorderRun l out
    let rres := inorderRun r (lres.2 ++ [v])
    (some (mk v lres.1 rres.1), rres.2)

mutual
/-- Number of nodes of the tree (the spec's `len()` observer). -/
def size : TreeNode → Nat
  | mk _ l r => 1 + sizeChild l + sizeChild r

/-- Number of nodes below an optional child slot. -/
def sizeChild : Option TreeNode → Nat
  | some t => size t
  | none => 0
end

mutual
/-- Depth of the tree: length of the longest root-to-leaf chain. -/
def height : TreeNode → Nat
  | mk _ l r => 1 + max (heightChild l) (heightChild r)

/-- Depth below an optional child slot. -/
def heightChild : Option TreeNode → Nat
  | some t => height t
  | none => 0
end

/-- Stage 3 `find` instrumented with explicit fuel: each unit of fuel pays for
one visited node, and exhausted fuel is `none`.  Used to express termination of
the descent within `height` steps. -/
def findFuel : Nat → TreeNode → Int → Option Bool
  | 0, _, _ => none
  | n + 1, mk v l r, x =>
    if x = v then some true
    else if x < v then
      match l with
      | some l' => findFuel n l' x
      | none => some false
    else
      match r with
      | some r' => findFuel n r' x
      | none => some false

/-- A tree built from the program's only constructors: `TreeNode::new(r)`
followed by a sequence of `insert` calls. -/
def build (r : Int) (vs : List Int) : TreeNode := vs.foldl insert (new r)

/-- A sequence of further `insert` calls applied to an existing tree. -/
def insertList (t : TreeNode) (vs : List Int) : TreeNode := vs.foldl insert t

/-- A tree built with the Stage 6 functions: `TreeNode::new(r)` followed by a
sequence of `TreeNode::insert(&root, v)` calls. -/
def buildRc (r : Int) (vs : List Int) : TreeNode := vs.foldl insertRc (new r)

mutual
/-- The ordering invariant `insert` actually maintains: at every node, all
values in the left subtree are strictly below `val` and all values in the right
subtree are greater than or equal to `val` (equal values are sent right). -/
def invB : TreeNode → Bool
  | mk v l r =>
    (inorder l).all (fun k => decide (k < v)) &&
    (inorder r).all (fun k => decide (v ≤ k)) &&
    invChild l && invChild r

/-- Lift of `invB` to an optional child slot. -/
def invChild : Option TreeNode → Bool
  | some t => invB t
  | none => true
end

mutual
/-- Modelled from the spec: the spec's strict BST-order invariant, "every key in
the subtree rooted at `N.left` is strictly less than `N.key`, and every key in
the subtree rooted at `N.right` is strictly greater than `N.key`".  Defined for
comparison with the invariant `invB` that the code maintains. -/
def strictInvB : TreeNode → Bool
  | mk v l r =>
    (inorder l).all (fun k => decide (k < v)) &&
    (inorder r).all (fun k => decide (v < k)) &&
    strictInvChild l && strictInvChild r

/-- Lift of `strictInvB` to an optional child slot. -/
def strictInvChild : Option TreeNode → Bool
  | some t => strictInvB t
  | none => true
end

/-- A direction taken at one node of a descent. -/
inductive Dir where
  | left
  | right
deriving DecidableEq, Repr

mutual
/-- The path of directions the Stage 3 `insert` descent takes before attaching
the new leaf: it mirrors `insert`'s control flow exactly, ending at the absent
child slot that the call fills. -/
def insertPos : TreeNode → Int → List Dir
  | mk v l r, x =>
    if x < v then Dir.left :: insertPosChild l x
    else Dir.right :: insertPosChild r x

/-- Continuation of the descent path below a child slot: empty at an absent
slot (the descent stops and attaches there). -/
def insertPosChild : Option TreeNode → Int → List Dir
  | some t, x => insertPos t x
  | none, _ => []
end

mutual
/-- The trace of the Stage 3 `insert` descent: at each visited node, the node's
value together with the direction taken there.  The new leaf ends up inside the
`d`-subtree of a visited node with value `w` exactly when `(w, d)` appears in
this trace. -/
def insertTrace : TreeNode → Int → List (Int × Dir)
  | mk v l r, x =>
    if x < v then (v, Dir.left) :: insertTraceChild l x
    else (v, Dir.right) :: insertTraceChild r x

/-- Continuation of the descent trace below a child slot. -/
def insertTraceChild : Option TreeNode → Int → List (Int × Dir)
  | some t, x => insertTrace t x
  | none, _ => []
end

mutual
/-- The content of the child slot reached by following a non-empty path of
directions from the root: `some s` when every intermediate step lands on an
existing child and the final step reads the slot content `s`; `none` when the
path is empty or runs through an absent child. -/
def slotAt : TreeNode → List Dir → Option (Option TreeNode)
  | _, [] => none
  | mk _ l _, Dir.left :: p => slotAtChild l p
  | mk _ _ r, Dir.right :: p => slotAtChild r p

/-- Continuation of `slotAt` at a child slot: an exhausted path reads the slot
itself, a longer path descends through an existing child or fails. -/
def slotAtChild : Option TreeNode → List Dir → Option (Option TreeNode)
  | c, [] => some c
  | some t, q :: p => slotAt t (q :: p)
  | none, _ :: _ => none
end

mutual
/-- Rebuild the tree with the child slot at the given non-empty path replaced
by `some s`, leaving every node value and every slot off the path untouched.
On a path that is empty or runs through an absent child it returns the tree
unchanged (such paths never arise from `insertPos`). -/
def setSlot : TreeNode → List Dir → TreeNode → TreeNode
  | mk v l r, [], _ => mk v l r
  | mk v l r, Dir.left :: p, s => mk v (setSlotChild l p s) r
  | mk v l r, Dir.right :: p, s => mk v l (setSlotChild r p s)

/-- Continuation of `setSlot` at a child slot: an exhausted path replaces the slot
content by `some s`, a longer path descends through an existing child, and an
absent child on a longer path is left absent. -/
def setSlotChild : Option TreeNode → List Dir → TreeNode → Option TreeNode
  | _, [], s => some s
  | some t, q :: p, s => some (setSlot t (q :: p) s)
  | none, _ :: _, _ => none
end

/-! ### Basic lemmas -/

mutual
theorem size_insert (t : TreeNode) (x : Int) : size (insert t x) = size t + 1 := by
  cases t with
  | mk v l r =>
    by_cases h : x < v <;>
      simp [insert, h, size, sizeChild, size_insertChild] <;> omega

theorem size_insertChild (l : Option TreeNode) (x : Int) :
    size (insertChild l x) = sizeChild l + 1 := by
  cases l with
  | some t => simp [insertChild, sizeChild, size_insert]
  | none => simp [insertChild, sizeChild, new, size]
end

mutual
theorem count_inorder_insert (t : TreeNode) (x k : Int) :
    (inorder (some (insert t x))).count k =
      (inorder (some t)).count k + (if k = x then 1 else 0) := by
  cases t with
  | mk v l r =>
    by_cases h : x < v <;>
      simp [insert, h, inorder, count_inorder_insertChild, List.count_append,
        List.count_cons] <;> omega

theorem count_inorder_insertChild (l : Option TreeNode) (x k : Int) :
    (inorder (some (insertChild l x))).count k =
      (inorder l).count k + (if k = x then 1 else 0) := by
  cases l with
  | some t => simpa using count_inorder_insert t x k
  | none =>
    simp [insertChild, new, inorder, List.count_cons]
    by_cases h : k = x
    · simp [h]
    · simp [h]
      exact fun hxk => h hxk.symm
end

theorem mem_inorder_insert (t : TreeNode) (x k : Int) :
    k ∈ inorder (some (insert t x)) ↔ k = x ∨ k ∈ inorder (some t) := by
  rw [← List.count_pos_iff, ← List.count_pos_iff, count_inorder_insert t x k]
  by_cases h : k = x <;> simp [h]

mutual
theorem find_mem (t : TreeNode) (k : Int) (h : find t k = true) :
    k ∈ inorder (some t) := by
  cases t with
  | mk v l r =>
    by_cases hv : k = v
    · simp [inorder, hv]
    · by_cases hlt : k < v <;> simp [find, hv, hlt] at h <;>
        simp [inorder, hv] <;>
        [exact Or.inl (findChild_mem l k h); exact Or.inr (findChild_mem r k h)]

theorem findChild_mem (l : Option TreeNode) (k : Int) (h : findChild l k = true) :
    k ∈ inorder l := by
  cases l with
  | some t => exact find_mem t k h
  | none => simp [findChild] at h
end

mutual
theorem find_insert_self (t : TreeNode) (x : Int) : find (insert t x) x = true := by
  cases t with
  | mk v l r =>
    by_cases hv : x = v
    · simp [insert, hv, find]
    · by_cases hlt : x < v <;>
        simp [insert, hlt, find, hv, findChild, findChild_insertChild_self]

theorem findChild_insertChild_self (l : Option TreeNode) (x : Int) :
    find (insertChild l x) x = true := by
  cases l with
  | some t => exact find_insert_self t x
  | none => simp [insertChild, new, find]
end

mutual
theorem find_insert_mono (t : TreeNode) (x k : Int) (h : find t k = true) :
    find (insert t x) k = true := by
  cases t with
  | mk v l r =>
    by_cases hv : k = v
    · by_cases hlt : x < v <;> simp [insert, hlt, find, hv]
    · by_cases hklt : k < v <;> simp [find, hv, hklt] at h <;>
        by_cases hxlt : x < v <;>
        simp [insert, hxlt, find, hv, hklt, findChild,
          findChild_insert_mono, h]

theorem findChild_insert_mono (l : Option TreeNode) (x k : Int)
    (h : findChild l k = true) : find (insertChild l x) k = true := by
  cases l with
  | some t => exact find_insert_mono t x k h
  | none => simp [findChild] at h
end

theorem mem_inorder_insertChild (l : Option TreeNode) (x k : Int) :
    k ∈ inorder (some (insertChild l x)) ↔ k = x ∨ k ∈ inorder l := by
  rw [← List.count_pos_iff, ← List.count_pos_iff, count_inorder_insertChild l x k]
  by_cases h : k = x <;> simp [h]

/-! ### The invariant maintained by `insert` -/

mutual
theorem invB_insert (t : TreeNode) (x : Int) (h : invB t = true) :
    invB (insert t x) = true := by
  cases t with
  | mk v l r =>
    simp only [invB, Bool.and_eq_true, List.all_eq_true, decide_eq_true_eq] at h
    obtain ⟨⟨⟨hl, hr⟩, hcl⟩, hcr⟩ := h
    by_cases hx : x < v
    · simp only [insert, if_pos hx, invB, Bool.and_eq_true, List.all_eq_true,
        decide_eq_true_eq, invChild]
      refine ⟨⟨⟨fun k hk => ?_, hr⟩, invChild_insertChild l x hcl⟩, hcr⟩
      rcases (mem_inorder_insertChild l x k).mp hk with h1 | h1
      · exact h1 ▸ hx
      · exact hl k h1
    · simp only [insert, if_neg hx, invB, Bool.and_eq_true, List.all_eq_true,
        decide_eq_true_eq, invChild]
      refine ⟨⟨⟨hl, fun k hk => ?_⟩, hcl⟩, invChild_insertChild r x hcr⟩
      rcases (mem_inorder_insertChild r x k).mp hk with h1 | h1
      · exact h1 ▸ not_lt.mp hx
      · exact hr k h1

theorem invChild_insertChild (l : Option TreeNode) (x : Int)
    (h : invChild l = true) : invB (insertChild l x) = true := by
  cases l with
  | some t => exact invB_insert t x h
  | none => simp [insertChild, new, invB, inorder, invChild]
end

theorem invB_new (v : Int) : invB (new v) = true := by
  simp [new, invB, inorder, invChild]

theorem invB_insertList (t : TreeNode) (vs : List Int) (h : invB t = true) :
    invB (insertList t vs) = true := by
  induction vs generalizing t with
  | nil => simpa [insertList] using h
  | cons v vs ih =>
    simpa [insertList] using ih (insert t v) (invB_insert t v h)

theorem invB_build (r : Int) (vs : List Int) : invB (build r vs) = true := by
  simpa [build, insertList] using invB_insertList (new r) vs (invB_new r)

mutual
theorem invB_sorted (t : TreeNode) (h : invB t = true) :
    (inorder (some t)).Sorted (· ≤ ·) := by
  cases t with
  | mk v l r =>
    simp only [invB, Bool.and_eq_true, List.all_eq_true, decide_eq_true_eq] at h
    obtain ⟨⟨⟨hl, hr⟩, hcl⟩, hcr⟩ := h
    simp only [inorder]
    refine List.pairwise_append.mpr ⟨invChild_sorted l hcl, ?_, ?_⟩
    · refine List.pairwise_cons.mpr ⟨fun b hb => hr b hb, invChild_sorted r hcr⟩
    · intro a ha b hb
      rcases List.mem_cons.mp hb with h1 | h1
      · exact h1 ▸ le_of_lt (hl a ha)
      · exact le_trans (le_of_lt (hl a ha)) (hr b h1)

theorem invChild_sorted (l : Option TreeNode) (h : invChild l = true) :
    (inorder l).Sorted (· ≤ ·) := by
  cases l with
  | some t => exact invB_sorted t h
  | none => simp [inorder, List.Sorted]
end

/-! ### Membership in built trees -/

theorem mem_inorder_insertList (t : TreeNode) (vs : List Int) (k : Int) :
    k ∈ inorder (some (insertList t vs)) ↔ k ∈ vs ∨ k ∈ inorder (some t) := by
  induction vs generalizing t with
  | nil => simp [insertList]
  | cons v vs ih =>
    simp only [insertList, List.foldl_cons, List.mem_cons]
    rw [show List.foldl insert (insert t v) vs = insertList (insert t v) vs from rfl]
    rw [ih (insert t v), mem_inorder_insert]
    tauto

theorem mem_inorder_build (r : Int) (vs : List Int) (k : Int) :
    k ∈ inorder (some (build r vs)) ↔ k = r ∨ k ∈ vs := by
  rw [show build r vs = insertList (new r) vs from rfl, mem_inorder_insertList]
  simp [new, inorder]
  tauto

/-! ### Fuelled find -/

mutual
theorem findFuel_spec (t : TreeNode) (x : Int) :
    ∀ n, height t ≤ n → findFuel n t x = some (find t x) := by
  cases t with
  | mk v l r =>
    intro n hn
    have h1 : 1 ≤ n := le_trans (by simp [height]) hn
    obtain ⟨m, rfl⟩ : ∃ m, n = m + 1 := ⟨n - 1, by omega⟩
    have hml : heightChild l ≤ m := by
      simp only [height] at hn; omega
    have hmr : heightChild r ≤ m := by
      simp only [height] at hn; omega
    by_cases hv : x = v
    · simp [findFuel, find, hv]
    · by_cases hlt : x < v
      · simpa [findFuel, find, hv, hlt] using findFuelChild_spec l x m hml
      · simpa [findFuel, find, hv, hlt] using findFuelChild_spec r x m hmr

theorem findFuelChild_spec (l : Option TreeNode) (x : Int) :
    ∀ m, heightChild l ≤ m →
      (match l with | some t => findFuel m t x | none => some false) =
        some (findChild l x) := by
  cases l with
  | some t => exact fun m hm => findFuel_spec t x m hm
  | none => intro m _; simp [findChild]
end

/-! ### The insert descent: trace and attachment point -/

theorem insertTrace_right_of_mem :
    ∀ (t : TreeNode) (x : Int), invB t = true → x ∈ inorder (some t) →
      (x, Dir.right) ∈ insertTrace t x
  | mk v l r, x => by
    intro hinv hmem
    simp only [invB, Bool.and_eq_true, List.all_eq_true, decide_eq_true_eq] at hinv
    obtain ⟨⟨⟨hl, hr⟩, hcl⟩, hcr⟩ := hinv
    simp only [inorder, List.mem_append, List.mem_cons] at hmem
    by_cases hv : x = v
    · subst hv
      simp [insertTrace, lt_irrefl]
    · rcases hmem with hml | hm
      · have hlt : x < v := hl x hml
        simp only [insertTrace, if_pos hlt, List.mem_cons]
        right
        cases l with
        | none => simp [inorder] at hml
        | some l' =>
          simp only [invChild] at hcl
          simpa [insertTraceChild] using insertTrace_right_of_mem l' x hcl hml
      · rcases hm with h1 | hmr
        · exact absurd h1 hv
        · have hge : v ≤ x := hr x hmr
          have hnlt : ¬x < v := not_lt.mpr hge
          simp only [insertTrace, if_neg hnlt, List.mem_cons]
          right
          cases r with
          | none => simp [inorder] at hmr
          | some r' =>
            simp only [invChild] at hcr
            simpa [insertTraceChild] using insertTrace_right_of_mem r' x hcr hmr

theorem insertPos_ne_nil (t : TreeNode) (x : Int) : insertPos t x ≠ [] := by
  cases t with
  | mk v l r => by_cases h : x < v <;> simp [insertPos, h]

mutual
theorem insert_eq_setSlot (t : TreeNode) (x : Int) :
    insert t x = setSlot t (insertPos t x) (new x) := by
  cases t with
  | mk v l r =>
    have hl := insertChild_eq_setSlotChild l x
    have hr := insertChild_eq_setSlotChild r x
    by_cases h : x < v
    · simp only [insert, insertPos]
      simp only [if_pos h]
      simp only [setSlot]
      rw [← hl]
    · simp only [insert, insertPos]
      simp only [if_neg h]
      simp only [setSlot]
      rw [← hr]
termination_by sizeOf t

theorem insertChild_eq_setSlotChild (l : Option TreeNode) (x : Int) :
    some (insertChild l x) = setSlotChild l (insertPosChild l x) (new x) := by
  cases l with
  | some t =>
    have ih := insert_eq_setSlot t x
    obtain ⟨d, p, hp⟩ : ∃ d p, insertPos t x = d :: p := by
      cases hpx : insertPos t x with
      | nil => exact absurd hpx (insertPos_ne_nil t x)
      | cons d p => exact ⟨d, p, rfl⟩
    rw [hp] at ih
    simp only [insertChild, insertPosChild]
    rw [hp]
    simp only [setSlotChild]
    rw [ih]
  | none => simp [insertChild, insertPosChild, setSlotChild]
termination_by sizeOf l
end

mutual
theorem slotAt_insertPos (t : TreeNode) (x : Int) :
    slotAt t (insertPos t x) = some none := by
  cases t with
  | mk v l r =>
    have hl := slotAtChild_insertPosChild l x
    have hr := slotAtChild_insertPosChild r x
    by_cases h : x < v
    · simp only [insertPos]
      simp only [if_pos h]
      simp only [slotAt]
      exact hl
    · simp only [insertPos]
      simp only [if_neg h]
      simp only [slotAt]
      exact hr
termination_by sizeOf t

theorem slotAtChild_insertPosChild (l : Option TreeNode) (x : Int) :
    slotAtChild l (insertPosChild l x) = some none := by
  cases l with
  | some t =>
    have ih := slotAt_insertPos t x
    obtain ⟨d, p, hp⟩ : ∃ d p, insertPos t x = d :: p := by
      cases hpx : insertPos t x with
      | nil => exact absurd hpx (insertPos_ne_nil t x)
      | cons d p => exact ⟨d, p, rfl⟩
    rw [hp] at ih
    simp only [insertPosChild]
    rw [hp]
    simp only [slotAtChild]
    exact ih
  | none => simp [insertPosChild, slotAtChild]
termination_by sizeOf l
end

/-! ### Equivalence of the Box (Stage 3) and Rc<RefCell> (Stage 6) code -/

mutual
theorem insert_eq_insertRc (t : TreeNode) (x : Int) : insert t x = insertRc t x := by
  cases t with
  | mk v l r =>
    by_cases h : x < v <;>
      simp [insert, insertRc, h, insertChild_eq_insertRcChild]

theorem insertChild_eq_insertRcChild (l : Option TreeNode) (x : Int) :
    insertChild l x = insertRcChild l x := by
  cases l with
  | some t => simpa [insertChild, insertRcChild] using insert_eq_insertRc t x
  | none => simp [insertChild, insertRcChild]
end

mutual
theorem find_eq_findRc (t : TreeNode) (x : Int) : find t x = findRc t x := by
  cases t with
  | mk v l r =>
    by_cases hv : x = v
    · simp [find, findRc, hv]
    · by_cases h : x < v <;>
        simp [find, findRc, hv, h, findChild_eq_findRcChild]

theorem findChild_eq_findRcChild (l : Option TreeNode) (x : Int) :
    findChild l x = findRcChild l x := by
  cases l with
  | some t => simpa [findChild, findRcChild] using find_eq_findRc t x
  | none => simp [findChild, findRcChild]
end

/-! ### The traversal is a pure reader -/

theorem inorderRun_spec :
    ∀ (t : Option TreeNode) (out : List Int), inorderRun t out = (t, out ++ inorder t)
  | none, out => by simp [inorderRun, inorder]
  | some (mk v l r), out => by
    simp [inorderRun, inorder, inorderRun_spec l, inorderRun_spec r]

theorem find_insertList_mono (t : TreeNode) (k : Int) (vs : List Int)
    (h : find t k = true) : find (insertList t vs) k = true := by
  induction vs generalizing t with
  | nil => simpa [insertList] using h
  | cons v vs ih =>
    simpa [insertList] using ih (insert t v) (find_insert_mono t v k h)

theorem insertList_eq_rcFold (vs : List Int) (t : TreeNode) :
    vs.foldl insert t = vs.foldl insertRc t := by
  induction vs generalizing t with
  | nil => rfl
  | cons v vs ih =>
    rw [List.foldl_cons, List.foldl_cons, insert_eq_insertRc, ih]

/-! ### Claims -/

/-- C1 counterexample: inserting the key 10 twice into the single-node tree
`TreeNode::new(10)` leaves a tree with three nodes, three of which hold key 10
— the second duplicate insert grows the tree instead of leaving its size
unchanged with a single node for the key, refuting the claim. -/
theorem c1_counterexample :
    size (insert (insert (new 10) 10) 10) = 3 ∧
    (inorder (some (insert (insert (new 10) 10) 10))).count 10 = 3 := by
  have h1 : insert (new 10) 10 = mk 10 none (some (new 10)) := by
    simp [new, insert, insertChild]
  have h2 : insert (mk 10 none (some (new 10))) 10 =
      mk 10 none (some (mk 10 none (some (new 10)))) := by
    simp [new, insert, insertChild]
  rw [h1, h2]
  constructor
  · rfl
  · simp [inorder, new, List.count_cons]

/-- C1 amended: re-inserting a key adds a node each time: after
`insert k; insert k` the size has grown by two, the inorder sequence holds two
more occurrences of `k`, and `find k` returns `true`. -/
theorem c1_amended_duplicate_insert_adds_node (t : TreeNode) (k : Int) :
    size (insert (insert t k) k) = size t + 2 ∧
    (inorder (some (insert (insert t k) k))).count k =
      (inorder (some t)).count k + 2 ∧
    find (insert (insert t k) k) k = true := by
  refine ⟨?_, ?_, find_insert_self (insert t k) k⟩
  · rw [size_insert, size_insert]
  · have h1 := count_inorder_insert (insert t k) k k
    have h2 := count_inorder_insert t k k
    simp at h1 h2
    omega

/-- C2 counterexample: the tree built by `new 10` followed by `insert 10` is
reachable by insertions alone, yet violates the spec's strict BST-order
invariant: its right child holds key 10, which is not strictly greater than
the root key 10. -/
theorem c2_counterexample : strictInvB (build 10 [10]) = false := by
  have h1 : build 10 [10] = mk 10 none (some (new 10)) := by
    simp [build, new, insert, insertChild]
  rw [h1]
  simp [strictInvB, strictInvChild, new, inorder]

/-- C2 amended: every tree reachable by `insert` operations satisfies the
ordering invariant the code actually maintains: at every node, keys in the
left subtree are strictly less than the node's key, and keys in the right
subtree are greater than or equal to it (equal keys are sent right). -/
theorem c2_amended_bst_invariant (r : Int) (vs : List Int) :
    invB (build r vs) = true :=
  invB_build r vs

/-- C3: for every tree built from a single-node root by a sequence of inserts,
the inorder traversal (left, node, right) yields a non-decreasing sequence. -/
theorem c3_inorder_sorted (r : Int) (vs : List Int) :
    (inorder (some (build r vs))).Sorted (· ≤ ·) :=
  invB_sorted (build r vs) (invB_build r vs)

/-- C4: after `insert k`, if no later insert uses key `k`, `find k` on the
resulting tree returns `true` (the implementation's boolean find). -/
theorem c4_find_after_insert (t : TreeNode) (k : Int) (vs : List Int)
    (h : k ∉ vs) : find (insertList (insert t k) vs) k = true :=
  find_insertList_mono (insert t k) k vs (find_insert_self t k)

/-- C4 witness at a concrete input. -/
theorem c4_find_after_insert_witness :
    (5 : Int) ∉ [7, 3] ∧
      find (insertList (insert (new 10) 5) [7, 3]) 5 = true :=
  ⟨by decide, c4_find_after_insert (new 10) 5 [7, 3] (by decide)⟩

/-- C5: `find k` on a tree built solely by inserts that never inserted `k`
returns `false`, and the absent-child search (`map_or(false, ...)`, the
behaviour on an empty handle) returns `false` as well — absence is a result,
not an error. -/
theorem c5_find_absent (r k : Int) (vs : List Int) (h1 : k ≠ r)
    (h2 : k ∉ vs) : find (build r vs) k = false ∧ findChild none k = false := by
  refine ⟨?_, rfl⟩
  cases hf : find (build r vs) k with
  | false => rfl
  | true =>
    have hmem := find_mem (build r vs) k hf
    rcases (mem_inorder_build r vs k).mp hmem with h | h
    · exact absurd h h1
    · exact absurd h h2

/-- C5 witness at a concrete input. -/
theorem c5_find_absent_witness :
    (7 : Int) ≠ 10 ∧ (7 : Int) ∉ [5, 20] ∧
      (find (build 10 [5, 20]) 7 = false ∧ findChild none 7 = false) :=
  ⟨by decide, by decide, c5_find_absent 10 7 [5, 20] (by decide) (by decide)⟩

/-- C6: the `find` descent terminates: with fuel equal to the tree's height —
finite, since the tree is an inductive value — the fuelled descent never
exhausts its fuel and returns `find`'s answer; each step descends into exactly
one child. -/
theorem c6_find_terminates (t : TreeNode) (x : Int) :
    findFuel (height t) t x = some (find t x) :=
  findFuel_spec t x (height t) le_rfl

/-- C7: the inorder traversal leaves the tree unchanged (it only reads through
the shared borrow), and rerunning it on the tree it left behind emits the very
same sequence. -/
theorem c7_inorder_pure_restartable (t : Option TreeNode) :
    (inorderRun t []).1 = t ∧
    (inorderRun (inorderRun t []).1 []).2 = (inorderRun t []).2 := by
  simp [inorderRun_spec]

/-- C8 counterexample: in the hand-built tree with root 5 whose left child
holds 10 (not reachable by inserts, but a legal value of the type), the value
10 is present, yet `insert 10` descends right from the root (value 5) and
attaches the new node there: no step of the descent goes right from a node
holding 10, so the new node is not in the right subtree of any node equal to
the inserted value. -/
theorem c8_counterexample :
    (10 : Int) ∈ inorder (some (mk 5 (some (new 10)) none)) ∧
    insert (mk 5 (some (new 10)) none) 10 =
      mk 5 (some (new 10)) (some (new 10)) ∧
    (10, Dir.right) ∉ insertTrace (mk 5 (some (new 10)) none) 10 := by
  refine ⟨?_, ?_, ?_⟩
  · simp [inorder, new]
  · norm_num [insert, insertChild]
  · norm_num [insertTrace, insertTraceChild, new]

/-- C8 amended: for trees satisfying the ordering invariant `insert` maintains
(in particular all insert-built trees), inserting a value already present
descends right at some node holding that value, so the new node lands in that
node's right subtree; for every tree whatsoever the size grows by one and the
inorder sequence gains one occurrence of the value. -/
theorem c8_amended_duplicate_goes_right (t : TreeNode) (v : Int)
    (hinv : invB t = true) (hmem : v ∈ inorder (some t)) :
    (v, Dir.right) ∈ insertTrace t v ∧
    size (insert t v) = size t + 1 ∧
    (inorder (some (insert t v))).count v = (inorder (some t)).count v + 1 := by
  refine ⟨insertTrace_right_of_mem t v hinv hmem, size_insert t v, ?_⟩
  have h := count_inorder_insert t v v
  simp at h
  omega

/-- C8 witness at a concrete input. -/
theorem c8_amended_duplicate_goes_right_witness :
    invB (new 10) = true ∧ (10 : Int) ∈ inorder (some (new 10)) ∧
      ((10, Dir.right) ∈ insertTrace (new 10) 10 ∧
        size (insert (new 10) 10) = size (new 10) + 1 ∧
        (inorder (some (insert (new 10) 10))).count 10 =
          (inorder (some (new 10))).count 10 + 1) :=
  ⟨invB_new 10, by simp [inorder, new],
    c8_amended_duplicate_goes_right (new 10) 10 (invB_new 10)
      (by simp [inorder, new])⟩

/-- C9: `insert` changes the tree only by filling exactly one absent child
slot with a fresh leaf: the slot at the descent's end is absent beforehand,
and the updated tree is the original rebuilt with just that slot set to the
new leaf — every other node value and slot is untouched by `setSlot`'s
construction. -/
theorem c9_insert_fills_one_empty_slot (t : TreeNode) (x : Int) :
    slotAt t (insertPos t x) = some none ∧
    insert t x = setSlot t (insertPos t x) (new x) :=
  ⟨slotAt_insertPos t x, insert_eq_setSlot t x⟩

/-- C10: the Stage 3 (`Box`) and Stage 6 (`Rc<RefCell>`) implementations are
observationally equivalent: from the same root value, the same sequence of
inserts yields identical trees, and `find` answers identically on them for
every queried value. -/
theorem c10_box_rc_equivalent (r : Int) (vs : List Int) (k : Int) :
    build r vs = buildRc r vs ∧
    find (build r vs) k = findRc (buildRc r vs) k := by
  have hb : build r vs = buildRc r vs := insertList_eq_rcFold vs (new r)
  exact ⟨hb, by rw [← hb, ← find_eq_findRc]⟩

end TreeNode
